import Mathlib

/-!
# Verification of the paradox-script parsing and merge subsystem

A shallow embedding of `common/paradox_parser.py`: the `Tree` data model
(an ordered dictionary wrapper), its query operations (`find_all`,
`find_all_recursively`, `merge_duplicate_keys`), the folder-level merge
policies of `ParadoxParser.parse_folder_as_one_file`, the sorted-path file
enumeration of `parse_files`, the error path of `_run_rakaly`, the
temp-file lifecycle of `_really_parse_file`, and the regex rewriting of
`ParsingWorkaround.apply_to_string` for `UnmarkedListWorkaround`.

Python values stored in a tree are modelled by the inductive type `Value`;
a python `dict` is modelled as an insertion-ordered association list with
the usual dict update semantics (assignment to an existing key keeps its
position, assignment to a fresh key appends).  Python exceptions are
modelled with `Except`.
-/

/-- A value held in a parsed tree: a scalar (bool / number / string), a list
of values (in particular the duplicate-key grouping produced by the external
parser), or a nested tree.  A `Tree` object is identified with its ordered
`dictionary`, a list of key/value pairs in insertion order. -/
inductive Value where
  | vBool : Bool → Value
  | vNum : Int → Value
  | vStr : String → Value
  | vList : List Value → Value
  | vTree : List (String × Value) → Value

/-- The ordered dictionary wrapped by a `Tree`. -/
abbrev Dict := List (String × Value)

/-- `isinstance(v, Tree)` -/
def isTree : Value → Bool
  | Value.vTree _ => true
  | _ => false

/-- `isinstance(v, list)` -/
def isList : Value → Bool
  | Value.vList _ => true
  | _ => false

/-- `d[key]` / `key in d`: lookup in an insertion-ordered dict. -/
def lookup : Dict → String → Option Value
  | [], _ => none
  | (k, v) :: rest, key => if k = key then some v else lookup rest key

/-- `key in d` -/
def containsKey (d : Dict) (key : String) : Bool :=
  (lookup d key).isSome

/-- `d[key] = v` on a python dict: replace the value in place when the key is
present (keeping its position), append the pair otherwise. -/
def setKey : Dict → String → Value → Dict
  | [], key, v => [(key, v)]
  | (k, w) :: rest, key, v =>
      if k = key then (k, v) :: rest else (k, w) :: setKey rest key v

/-- `d.update(m)` for a mapping `m`: assign each of `m`'s pairs in order. -/
def dictUpdate (d m : Dict) : Dict :=
  m.foldl (fun acc kv => setKey acc kv.1 kv.2) d

/-- `Tree.get_or_default` -/
def get_or_default (d : Dict) (key : String) (default : Value) : Value :=
  match lookup d key with
  | some v => v
  | none => default

/-- `Tree.find_all`: the values yielded for `search_key` — nothing when the
key is absent, each element of a stored list in order, otherwise the single
stored value. -/
def find_all (d : Dict) (searchKey : String) : List Value :=
  match lookup d searchKey with
  | none => []
  | some (Value.vList entries) => entries
  | some v => [v]

mutual
/-- `Tree.find_all_recursively`: pre-order walk of the dictionary items;
a matching key yields its value, a `Tree` value is searched recursively, and
the `Tree` items of a list value are searched recursively. -/
def find_all_recursively (searchKey : String) : Dict → List Value
  | [] => []
  | (k, v) :: rest =>
      (if k = searchKey then [v] else farValue searchKey v) ++
        find_all_recursively searchKey rest

/-- The `elif` chain of `find_all_recursively` applied to one non-matching
value. -/
def farValue (searchKey : String) : Value → List Value
  | Value.vTree t => find_all_recursively searchKey t
  | Value.vList items => farItems searchKey items
  | _ => []

/-- The `for item in value` loop of `find_all_recursively`: only items which
are `Tree`s are searched. -/
def farItems (searchKey : String) : List Value → List Value
  | [] => []
  | Value.vTree t :: rest => find_all_recursively searchKey t ++ farItems searchKey rest
  | _ :: rest => farItems searchKey rest
end

/-- Python runtime errors raised by the modelled code. -/
inductive PyError where
  | indexError
  | typeError
deriving DecidableEq

/-- The loop `for item in value: merged.dictionary.update(item.dictionary)`
of `merge_duplicate_keys`; `dict.update` applied to a non-`Tree` raises. -/
def updateAll (acc : Dict) : List Value → Except PyError Dict
  | [] => Except.ok acc
  | Value.vTree t :: rest => updateAll (dictUpdate acc t) rest
  | _ :: _ => Except.error PyError.typeError

/-- `Tree.merge_duplicate_keys`: every top-level value which is a list whose
first element is a `Tree` (`value[0]` raises on an empty list) is replaced,
in place, by the single tree obtained by updating an empty accumulator with
each list element in order; every other entry is kept.  Returns the updated
receiver. -/
def merge_duplicate_keys : Dict → Except PyError Dict
  | [] => Except.ok []
  | (k, v) :: rest =>
      match v with
      | Value.vList [] => Except.error PyError.indexError
      | Value.vList (first :: more) =>
          if isTree first then do
            let merged ← updateAll [] (first :: more)
            let rest' ← merge_duplicate_keys rest
            Except.ok ((k, Value.vTree merged) :: rest')
          else do
            let rest' ← merge_duplicate_keys rest
            Except.ok ((k, v) :: rest')
      | _ => do
          let rest' ← merge_duplicate_keys rest
          Except.ok ((k, v) :: rest')

/-- One iteration of the `overwrite_duplicate_toplevel_keys=False` loop body
of `parse_folder_as_one_file`: an existing `Tree` is updated with the new
value's pairs (raising when the new value is not a `Tree`), an existing list
gets the new value appended, any other existing value becomes the two-element
list `[old, new]`, and an absent key is assigned. -/
def mergeKeyNoOverwrite (result : Dict) (key : String) (value : Value) :
    Except PyError Dict :=
  match lookup result key with
  | some (Value.vTree t) =>
      match value with
      | Value.vTree t2 => Except.ok (setKey result key (Value.vTree (dictUpdate t t2)))
      | _ => Except.error PyError.typeError
  | some (Value.vList l) => Except.ok (setKey result key (Value.vList (l ++ [value])))
  | some old => Except.ok (setKey result key (Value.vList [old, value]))
  | none => Except.ok (setKey result key value)

/-- The `for key, value in self._really_parse_file(file, workarounds)` loop
of `parse_folder_as_one_file` for one file. -/
def mergeFileNoOverwrite (result : Dict) (tree : Dict) : Except PyError Dict :=
  tree.foldlM (fun acc kv => mergeKeyNoOverwrite acc kv.1 kv.2) result

/-- The per-file merge step of `parse_folder_as_one_file`:
`result.dictionary.update(...)` under the overwrite policy, the element-wise
loop otherwise. -/
def mergeFile (overwrite : Bool) (result : Dict) (tree : Dict) :
    Except PyError Dict :=
  if overwrite then Except.ok (dictUpdate result tree) else mergeFileNoOverwrite result tree

/-- `sorted(...)` applied to the paths produced by the filesystem glob:
python's stable sort under the lexicographic path order. -/
def sortPaths (paths : List String) : List String :=
  List.insertionSort (· ≤ ·) paths

/-- `ParadoxParser.parse_files`: the globbed files are visited in sorted
order and each is parsed; `parse` stands for `_really_parse_file`. -/
def parse_files (paths : List String) (parse : String → Dict) :
    List (String × Dict) :=
  (sortPaths paths).map fun p => (p, parse p)

/-- `ParadoxParser.parse_folder_as_one_file`: fold the parses of the sorted
files into one tree, starting from `Tree({})`, with the selected merge
policy. -/
def parse_folder_as_one_file (paths : List String) (parse : String → Dict)
    (overwrite : Bool) : Except PyError Dict :=
  (sortPaths paths).foldlM (fun result p => mergeFile overwrite result (parse p)) []

/-- The completed-process data of `subprocess.run` used by `_run_rakaly`:
exit status and captured output streams.  The streams are modelled as the
character sequences of the decoded python strings. -/
structure SubprocessResult where
  returncode : Int
  stdout : List Char
  stderr : List Char

/-- The exception raised by `_run_rakaly` on a non-zero exit status, carrying
the operands of `'Error reading "{}": {}'.format(file, rakaly_error_message)`:
the file handed to rakaly and the diagnostic text. -/
structure RakalyError where
  file : String
  message : List Char
deriving DecidableEq

/-- `ParadoxParser._run_rakaly`, given the completed subprocess result: a
non-zero exit status raises with the stderr text minus its last character
(`[:-1]`); otherwise the standard output is parsed as JSON (`parseJson`
stands for `_parse_json`). -/
def run_rakaly (file : String) (r : SubprocessResult)
    (parseJson : List Char → Dict) : Except RakalyError Dict :=
  if r.returncode ≠ 0 then
    Except.error { file := file, message := r.stderr.dropLast }
  else
    Except.ok (parseJson r.stdout)

/-- The workaround branch of `ParadoxParser._really_parse_file`, with the
filesystem modelled as the list of currently existing temp-file names:
`mkstemp` creates `tempName`, the `try` body writes the rewritten contents
and runs rakaly (each step given by its outcome, an `Except`), and the
`finally` clause removes `tempName` whether the body succeeded or raised.
The function returns the propagated outcome together with the final
filesystem. -/
def really_parse_file_workaround (fs : List String) (tempName : String)
    (writeOutcome : Except PyError Unit) (rakalyOutcome : Except PyError Dict) :
    Except PyError Dict × List String :=
  let fsAfterCreate := tempName :: fs
  let body : Except PyError Dict := do
    writeOutcome
    rakalyOutcome
  let fsAfterRemove := fsAfterCreate.erase tempName
  (body, fsAfterRemove)

/-! ## The `UnmarkedListWorkaround` regex rewrite

`UnmarkedListWorkaround.replacement_regexes` holds the single pattern
`(=\s*)(list\s+[^#{}=\n]+)` with replacement `\1{ \2 }`, and
`ParsingWorkaround.apply_to_string` applies `re.sub` with it across the
text.  The matcher below reproduces python's leftmost, greedy,
backtracking semantics for this concrete pattern on character lists. -/

/-- python `\s` for a `str` pattern: the unicode whitespace set of
`Py_UNICODE_ISSPACE` — `\t`–`\r`, `\x1c`–`\x20`, next line, no-break space,
ogham space mark, the `\x2000`–`\x200a` spaces, line and paragraph
separators, narrow no-break space, medium mathematical space, and
ideographic space. -/
def isSpace (c : Char) : Bool :=
  decide ((0x09 ≤ c.toNat ∧ c.toNat ≤ 0x0d) ∨ (0x1c ≤ c.toNat ∧ c.toNat ≤ 0x20) ∨
    c.toNat = 0x85 ∨ c.toNat = 0xa0 ∨ c.toNat = 0x1680 ∨
    (0x2000 ≤ c.toNat ∧ c.toNat ≤ 0x200a) ∨ c.toNat = 0x2028 ∨ c.toNat = 0x2029 ∨
    c.toNat = 0x202f ∨ c.toNat = 0x205f ∨ c.toNat = 0x3000)

/-- The character class `[^#{}=\n]`. -/
def isClassChar (c : Char) : Bool :=
  !(c = '#' || c = '\x7b' || c = '\x7d' || c = '=' || c = '\n')

/-- Does the list start with a character of the class `[^#{}=\n]`? -/
def headIsClass : List Char → Bool
  | d :: _ => isClassChar d
  | [] => false

/-- Match of `\s+[^#{}=\n]+` at the head of `X` with python's greedy
backtracking: `\s+` first takes the maximal whitespace run `W`; if the next
character is in the class the class takes its maximal run; otherwise `\s+`
gives characters back to the class, which succeeds at the last non-newline
position of `W` after its first character, the class run then stopping
immediately.  Returns the consumed part and the remainder. -/
def matchTail (X : List Char) : Option (List Char × List Char) :=
  let W := X.takeWhile isSpace
  let D := X.dropWhile isSpace
  if W.isEmpty then none
  else if headIsClass D then
    some (W ++ D.takeWhile isClassChar, D.dropWhile isClassChar)
  else
    let t := (W.reverse.takeWhile fun c => c = '\n').length
    if 2 ≤ W.length - t then
      some (W.take (W.length - t), W.drop (W.length - t) ++ D)
    else none

/-- Match of `(=\s*)(list\s+[^#{}=\n]+)` at the head of `s`: a literal `=`,
the maximal whitespace run (greedy `\s*`, deterministic because `l` is not
whitespace), the literal `list`, then `matchTail`.  Returns the two capture
groups and the remainder. -/
def matchAt (s : List Char) : Option (List Char × List Char × List Char) :=
  match s with
  | [] => none
  | c :: t =>
      if c = '=' then
        let ws := t.takeWhile isSpace
        let u := t.dropWhile isSpace
        if u.take 4 = ['l', 'i', 's', 't'] then
          match matchTail (u.drop 4) with
          | some (consumed, rem) =>
              some ('=' :: ws, ['l', 'i', 's', 't'] ++ consumed, rem)
          | none => none
        else none
      else none

/-- `matchTail` consumes a nonempty prefix. -/
theorem matchTail_decomp {X con rem : List Char}
    (h : matchTail X = some (con, rem)) : X = con ++ rem ∧ con ≠ [] := by
  simp only [matchTail] at h
  split at h
  · exact absurd h (by simp)
  next hW =>
    split at h
    · injection h with h'
      injection h' with h1 h2
      subst h1; subst h2
      constructor
      · rw [List.append_assoc, List.takeWhile_append_dropWhile,
          List.takeWhile_append_dropWhile]
      · intro hc
        rw [List.append_eq_nil] at hc
        exact hW (by simp [List.isEmpty_iff, hc.1])
    · split at h
      next hlen =>
        injection h with h'
        injection h' with h1 h2
        subst h1; subst h2
        constructor
        · rw [← List.append_assoc, List.take_append_drop,
            List.takeWhile_append_dropWhile]
        · have : 0 < (X.takeWhile isSpace).length -
              ((X.takeWhile isSpace).reverse.takeWhile fun c => c = '\n').length := by
            omega
          simp only [ne_eq, ← List.length_pos_iff_ne_nil, List.length_take]
          omega
      · exact absurd h (by simp)

/-- `matchAt` decomposes its input, with a nonempty first group. -/
theorem matchAt_decomp {s g1 g2 rem : List Char}
    (h : matchAt s = some (g1, g2, rem)) :
    s = g1 ++ g2 ++ rem ∧ g1 ≠ [] := by
  unfold matchAt at h
  match s, h with
  | c :: t, h =>
    simp only at h
    split at h
    next hc =>
      split at h
      next hl =>
        split at h
        next con rem' hmt =>
          injection h with h'
          injection h' with h1 h'
          injection h' with h2 h3
          subst h1; subst h2; subst h3; subst hc
          have hd := matchTail_decomp hmt
          constructor
          · have : t = t.takeWhile isSpace ++ (t.dropWhile isSpace) := by
              rw [List.takeWhile_append_dropWhile]
            conv_lhs => rw [this]
            have hu : t.dropWhile isSpace =
                ['l', 'i', 's', 't'] ++ (t.dropWhile isSpace).drop 4 := by
              conv_lhs => rw [← List.take_append_drop 4 (t.dropWhile isSpace), hl]
            rw [hu, hd.1]
            simp
          · simp
        · exact absurd h (by simp)
      · exact absurd h (by simp)
    · exact absurd h (by simp)

/-- The remainder of a successful `matchAt` is shorter than the input. -/
theorem matchAt_rem_lt {s g1 g2 rem : List Char}
    (h : matchAt s = some (g1, g2, rem)) : rem.length < s.length := by
  obtain ⟨hs, hne⟩ := matchAt_decomp h
  subst hs
  simp only [List.length_append]
  have : 0 < g1.length := List.length_pos_of_ne_nil hne
  omega

/-- `re.sub` for the `UnmarkedListWorkaround` pattern: scan left to right;
at a match emit `\1{ \2 }` and continue after the match, otherwise copy one
character. -/
def subUnmarkedList : List Char → List Char
  | [] => []
  | c :: rest =>
      match h : matchAt (c :: rest) with
      | some (g1, g2, rem) =>
          g1 ++ '\x7b' :: ' ' :: (g2 ++ ' ' :: '\x7d' :: subUnmarkedList rem)
      | none => c :: subUnmarkedList rest
termination_by s => s.length
decreasing_by
  · exact matchAt_rem_lt h
  · simp

/-- `UnmarkedListWorkaround.apply_to_string`: `replacement_regexes` holds a
single pattern, so `apply_to_string` is one `re.sub` pass. -/
def apply_to_string (s : List Char) : List Char :=
  subUnmarkedList s

/-! ## Specification-side definitions

The definitions below restate parts of the specification in its own words,
for comparison with the code-derived definitions above. -/

mutual
/-- Every `(key, value)` binding of a tree, in depth-first pre-order,
descending into every nested tree value and into the tree items of every
list value. -/
def allBindings : Dict → List (String × Value)
  | [] => []
  | (k, v) :: rest => (k, v) :: (valueBindings v ++ allBindings rest)

/-- The bindings nested inside one value. -/
def valueBindings : Value → List (String × Value)
  | Value.vTree t => allBindings t
  | Value.vList items => itemsBindings items
  | _ => []

/-- The bindings nested inside the tree items of a list value. -/
def itemsBindings : List Value → List (String × Value)
  | [] => []
  | Value.vTree t :: rest => allBindings t ++ itemsBindings rest
  | _ :: rest => itemsBindings rest
end

mutual
/-- Like `allBindings`, but the traversal does not descend into the value of
a binding whose key is `searchKey` (the descent that
`find_all_recursively` actually performs). -/
def reachableBindings (searchKey : String) : Dict → List (String × Value)
  | [] => []
  | (k, v) :: rest =>
      (k, v) :: ((if k = searchKey then [] else valueReachable searchKey v) ++
        reachableBindings searchKey rest)

/-- The reachable bindings nested inside one value. -/
def valueReachable (searchKey : String) : Value → List (String × Value)
  | Value.vTree t => reachableBindings searchKey t
  | Value.vList items => itemsReachable searchKey items
  | _ => []

/-- The reachable bindings nested inside the tree items of a list value. -/
def itemsReachable (searchKey : String) : List Value → List (String × Value)
  | [] => []
  | Value.vTree t :: rest => reachableBindings searchKey t ++ itemsReachable searchKey rest
  | _ :: rest => itemsReachable searchKey rest
end

/-- The values bound to `searchKey` among an enumerated list of bindings, in
enumeration order. -/
def boundValues (searchKey : String) (bs : List (String × Value)) : List Value :=
  (bs.filter fun kv => kv.1 == searchKey).map Prod.snd

/-- Modelled from the spec: the diagnostic text "stripped of a single
trailing newline". -/
def stripTrailingNewline (s : List Char) : List Char :=
  if s.getLast? = some '\n' then s.dropLast else s

/-- Folding a duplicate-key group: apply each list element's key/value pairs
onto an accumulator in list order (later entries overwriting earlier
entries on key collision); non-tree elements contribute nothing. -/
def foldTreeDicts (items : List Value) (acc : Dict) : Dict :=
  items.foldl
    (fun a v =>
      match v with
      | Value.vTree t => dictUpdate a t
      | _ => a)
    acc

/-- What `merge_duplicate_keys` makes of a single top-level entry: a list
value whose first element is a tree becomes the folded tree, any other
entry is kept. -/
def mergeEntry : String × Value → String × Value
  | (k, Value.vList (Value.vTree t :: more)) =>
      (k, Value.vTree (foldTreeDicts (Value.vTree t :: more) []))
  | kv => kv

/-- A top-level entry on which `merge_duplicate_keys` cannot raise: not an
empty list, and a list with a tree first element consists of trees only. -/
def goodEntry : String × Value → Bool
  | (_, Value.vList []) => false
  | (_, Value.vList (first :: more)) => !isTree first || (first :: more).all isTree
  | _ => true

/-- The keys of a tree value. -/
def valueKeys : Value → List String
  | Value.vTree t => t.map Prod.fst
  | _ => []

/-- No key occurs in two distinct elements of a duplicate-key group. -/
def disjointTreeKeys : List Value → Bool
  | [] => true
  | v :: rest =>
      (rest.all fun w => (valueKeys v).all fun k => !(valueKeys w).contains k) &&
        disjointTreeKeys rest

/-- The hypothesis of the idempotence claim: every grouped (list) value is a
non-empty group of trees without colliding keys. -/
def groupedTreesOk : String × Value → Bool
  | (_, Value.vList items) => !items.isEmpty && items.all isTree && disjointTreeKeys items
  | _ => true

/-- The merge policy of `parse_folder_as_one_file` for one colliding
top-level key under `overwrite_duplicate_toplevel_keys=False`, as a function
of the existing value and the new value. -/
def resolveCollision : Option Value → Value → Except PyError Value
  | some (Value.vTree t), Value.vTree t2 => Except.ok (Value.vTree (dictUpdate t t2))
  | some (Value.vTree _), _ => Except.error PyError.typeError
  | some (Value.vList l), v => Except.ok (Value.vList (l ++ [v]))
  | some old, v => Except.ok (Value.vList [old, v])
  | none, v => Except.ok v

/-- The two files of the spec's overwrite-policy example: file1 holds
`{a: {x:1}}`, file2 holds `{a: {y:2}}`. -/
def examplePoliciesParse (p : String) : Dict :=
  if p = "file2.txt" then [("a", Value.vTree [("y", Value.vNum 2)])]
  else [("a", Value.vTree [("x", Value.vNum 1)])]

/-! ## Dictionary lemmas -/

theorem exceptBind_ok {ε α β : Type} (a : α) (f : α → Except ε β) :
    (Except.ok a >>= f) = f a := rfl

theorem exceptBind_error {ε α β : Type} (e : ε) (f : α → Except ε β) :
    ((Except.error e : Except ε α) >>= f) = Except.error e := rfl

theorem lookup_eq_none_of_not_mem_keys {d : Dict} {k : String}
    (h : k ∉ d.map Prod.fst) : lookup d k = none := by
  induction d with
  | nil => rfl
  | cons kv rest ih =>
      obtain ⟨k', v'⟩ := kv
      simp only [List.map_cons, List.mem_cons] at h
      push_neg at h
      rw [lookup, if_neg fun hc => h.1 hc.symm]
      exact ih h.2

theorem lookup_setKey_self (d : Dict) (k : String) (v : Value) :
    lookup (setKey d k v) k = some v := by
  induction d with
  | nil => simp [setKey, lookup]
  | cons kv rest ih =>
      obtain ⟨k', v'⟩ := kv
      by_cases hk : k' = k
      · simp [setKey, hk, lookup]
      · simp [setKey, hk, lookup, ih]

theorem lookup_setKey_of_ne {k' k : String} (d : Dict) (v : Value)
    (h : k' ≠ k) : lookup (setKey d k' v) k = lookup d k := by
  induction d with
  | nil => simp [setKey, lookup, h]
  | cons kv rest ih =>
      obtain ⟨k'', v''⟩ := kv
      by_cases hk : k'' = k'
      · subst hk
        simp [setKey, lookup, h]
      · simp only [setKey, if_neg hk, lookup, ih]

theorem dictUpdate_cons (d : Dict) (k : String) (v : Value) (m : Dict) :
    dictUpdate d ((k, v) :: m) = dictUpdate (setKey d k v) m := rfl

theorem lookup_dictUpdate_of_none {m : Dict} {k : String} (d : Dict)
    (h : lookup m k = none) : lookup (dictUpdate d m) k = lookup d k := by
  induction m generalizing d with
  | nil => rfl
  | cons kv rest ih =>
      obtain ⟨k', v'⟩ := kv
      simp only [lookup] at h
      by_cases hk : k' = k
      · simp [hk] at h
      · rw [if_neg hk] at h
        rw [dictUpdate_cons, ih _ h, lookup_setKey_of_ne _ _ hk]

theorem lookup_dictUpdate_of_some :
    ∀ (m d : Dict) (k : String) (v : Value),
      (m.map Prod.fst).Nodup → lookup m k = some v →
      lookup (dictUpdate d m) k = some v := by
  intro m
  induction m with
  | nil => intro d k v _ h; simp [lookup] at h
  | cons kv rest ih =>
      intro d k v hnd h
      obtain ⟨k', v'⟩ := kv
      simp only [List.map_cons, List.nodup_cons] at hnd
      simp only [lookup] at h
      by_cases hk : k' = k
      · rw [if_pos hk] at h
        injection h with h
        subst h
        subst hk
        rw [dictUpdate_cons,
          lookup_dictUpdate_of_none _ (lookup_eq_none_of_not_mem_keys hnd.1),
          lookup_setKey_self]
      · rw [if_neg hk] at h
        rw [dictUpdate_cons]
        exact ih _ _ _ hnd.2 h

/-! ## C5: `find_all` -/

/-- C5: `find_all` yields nothing when the key is absent (it is total, hence
never raises), each stored list element in original order when the stored
value is a list, and exactly the single stored value otherwise. -/
theorem find_all_cases (d : Dict) (key : String) (v : Value) (l : List Value) :
    (lookup d key = none → find_all d key = [])
  ∧ (lookup d key = some (Value.vList l) → find_all d key = l)
  ∧ (lookup d key = some v → isList v = false → find_all d key = [v]) := by
  refine ⟨fun h => ?_, fun h => ?_, fun h hv => ?_⟩
  · simp [find_all, h]
  · simp [find_all, h]
  · cases v <;> simp_all [find_all, isList]

/-- Witness for C5 on the concrete tree `{x: [1, 2], y: 3}`. -/
theorem find_all_cases_witness :
    find_all [("x", Value.vList [Value.vNum 1, Value.vNum 2]), ("y", Value.vNum 3)] "z" = []
  ∧ find_all [("x", Value.vList [Value.vNum 1, Value.vNum 2]), ("y", Value.vNum 3)] "x" =
      [Value.vNum 1, Value.vNum 2]
  ∧ find_all [("x", Value.vList [Value.vNum 1, Value.vNum 2]), ("y", Value.vNum 3)] "y" =
      [Value.vNum 3] :=
  ⟨(find_all_cases _ "z" (Value.vNum 0) []).1 rfl,
   (find_all_cases _ "x" (Value.vNum 0) [Value.vNum 1, Value.vNum 2]).2.1 rfl,
   (find_all_cases _ "y" (Value.vNum 3) []).2.2 rfl rfl⟩

/-! ## C7: `_run_rakaly` error path -/

/-- C7: whenever the external tool exits with non-zero status (its failure
contract putting a diagnostic ending in a newline on stderr), `_run_rakaly`
raises an error carrying the file it was invoked on and the stderr text with
exactly the single trailing newline stripped. -/
theorem run_rakaly_error_spec (file : String) (r : SubprocessResult)
    (parseJson : List Char → Dict) (hret : r.returncode ≠ 0)
    (hnl : r.stderr.getLast? = some '\n') :
    run_rakaly file r parseJson =
      Except.error { file := file, message := stripTrailingNewline r.stderr } := by
  rw [run_rakaly, if_pos hret, stripTrailingNewline, if_pos hnl]

/-- Witness for C7: exit status 2 with stderr `unexpected token\n`. -/
theorem run_rakaly_error_spec_witness :
    (2 : Int) ≠ 0
  ∧ ("unexpected token\n".data.getLast? = some '\n')
  ∧ run_rakaly "common/defines.txt" ⟨2, [], "unexpected token\n".data⟩ (fun _ => []) =
      Except.error { file := "common/defines.txt",
                     message := stripTrailingNewline "unexpected token\n".data } :=
  ⟨by decide, by decide,
   run_rakaly_error_spec "common/defines.txt" ⟨2, [], "unexpected token\n".data⟩
     (fun _ => []) (by decide) (by decide)⟩

/-! ## C8: temp-file cleanup -/

/-- C8: whichever way the write and the external invocation turn out
(success or raised error), after the workaround branch of
`_really_parse_file` the temp file no longer exists — the filesystem is
exactly as before the call. -/
theorem temp_file_cleanup (fs : List String) (tempName : String)
    (writeOutcome : Except PyError Unit) (rakalyOutcome : Except PyError Dict)
    (hfresh : tempName ∉ fs) :
    (really_parse_file_workaround fs tempName writeOutcome rakalyOutcome).2 = fs
  ∧ tempName ∉ (really_parse_file_workaround fs tempName writeOutcome rakalyOutcome).2 := by
  have h2 : (really_parse_file_workaround fs tempName writeOutcome rakalyOutcome).2 = fs := by
    simp [really_parse_file_workaround]
  exact ⟨h2, by rw [h2]; exact hfresh⟩

/-- Witness for C8: a failing external invocation, with one unrelated file
present. -/
theorem temp_file_cleanup_witness :
    "paradox_parser_workaround42.txt" ∉ ["common/00_goods.txt"]
  ∧ (really_parse_file_workaround ["common/00_goods.txt"]
      "paradox_parser_workaround42.txt" (Except.ok ())
      (Except.error PyError.typeError)).2 = ["common/00_goods.txt"]
  ∧ "paradox_parser_workaround42.txt" ∉
      (really_parse_file_workaround ["common/00_goods.txt"]
        "paradox_parser_workaround42.txt" (Except.ok ())
        (Except.error PyError.typeError)).2 := by
  have h : "paradox_parser_workaround42.txt" ∉ ["common/00_goods.txt"] := by simp
  exact ⟨h,
    (temp_file_cleanup ["common/00_goods.txt"] "paradox_parser_workaround42.txt"
      (Except.ok ()) (Except.error PyError.typeError) h).1,
    (temp_file_cleanup ["common/00_goods.txt"] "paradox_parser_workaround42.txt"
      (Except.ok ()) (Except.error PyError.typeError) h).2⟩

/-! ## C6: deterministic sorted processing order -/

/-- C6: both `parse_files` and `parse_folder_as_one_file` process the
matching files in lexicographically sorted path order — the processing
order is sorted, is a rearrangement of the globbed files, and is the same
for any two enumeration orders of the same files (so the merged result of
`parse_folder_as_one_file` is as well, under every merge policy); for files
`a.txt`, `b.txt`, `c.txt` the order is `a.txt, b.txt, c.txt`. -/
theorem processing_order_sorted (paths1 paths2 : List String)
    (parse : String → Dict) (h : paths1.Perm paths2) :
    (parse_files paths1 parse).map Prod.fst = sortPaths paths1
  ∧ List.Sorted (· ≤ ·) (sortPaths paths1)
  ∧ (sortPaths paths1).Perm paths1
  ∧ sortPaths paths1 = sortPaths paths2
  ∧ (∀ overwrite, parse_folder_as_one_file paths1 parse overwrite =
      parse_folder_as_one_file paths2 parse overwrite)
  ∧ sortPaths ["c.txt", "a.txt", "b.txt"] = ["a.txt", "b.txt", "c.txt"] := by
  have hsort : sortPaths paths1 = sortPaths paths2 := by
    apply List.eq_of_perm_of_sorted (r := fun a b : String => a ≤ b)
    · exact ((List.perm_insertionSort _ _).trans h).trans
        (List.perm_insertionSort _ _).symm
    · exact List.sorted_insertionSort _ _
    · exact List.sorted_insertionSort _ _
  refine ⟨?_, List.sorted_insertionSort _ _, List.perm_insertionSort _ _, hsort,
    fun overwrite => ?_, ?_⟩
  · simp [parse_files, Function.comp_def]
  · rw [parse_folder_as_one_file, parse_folder_as_one_file, hsort]
  · simp [sortPaths, List.insertionSort, List.orderedInsert]
    decide

/-- Witness for C6: two enumeration orders of the same three files. -/
theorem processing_order_sorted_witness :
    List.Perm ["c.txt", "a.txt", "b.txt"] ["b.txt", "a.txt", "c.txt"]
  ∧ sortPaths ["c.txt", "a.txt", "b.txt"] = sortPaths ["b.txt", "a.txt", "c.txt"]
  ∧ sortPaths ["c.txt", "a.txt", "b.txt"] = ["a.txt", "b.txt", "c.txt"] := by
  have h : List.Perm ["c.txt", "a.txt", "b.txt"] ["b.txt", "a.txt", "c.txt"] := by decide
  exact ⟨h,
    (processing_order_sorted ["c.txt", "a.txt", "b.txt"] ["b.txt", "a.txt", "c.txt"]
      (fun _ => []) h).2.2.2.1,
    (processing_order_sorted ["c.txt", "a.txt", "b.txt"] ["b.txt", "a.txt", "c.txt"]
      (fun _ => []) h).2.2.2.2.2⟩

/-! ## C10: `merge_duplicate_keys` on an empty duplicate group -/

/-- C10: a tree holding an empty list under some top-level key makes
`merge_duplicate_keys` raise (the guard evaluates `value[0]` before knowing
the list is non-empty) instead of leaving the entry unchanged. -/
theorem merge_duplicate_keys_empty_group_raises (d : Dict) (k : String)
    (h : (k, Value.vList []) ∈ d) :
    ∃ e, merge_duplicate_keys d = Except.error e := by
  induction d with
  | nil => simp at h
  | cons kv rest ih =>
      obtain ⟨k', v'⟩ := kv
      rcases List.mem_cons.mp h with heq | hmem
      · injection heq with h1 h2
        subst h2
        exact ⟨PyError.indexError, rfl⟩
      · obtain ⟨e, he⟩ := ih hmem
        match v' with
        | Value.vList [] => exact ⟨PyError.indexError, rfl⟩
        | Value.vList (first :: more) =>
            by_cases ht : isTree first
            · cases hu : updateAll [] (first :: more) with
              | error e' =>
                  exact ⟨e', by simp [merge_duplicate_keys, ht, hu, exceptBind_error]⟩
              | ok m =>
                  exact ⟨e, by
                    simp [merge_duplicate_keys, ht, hu, he, exceptBind_ok, exceptBind_error]⟩
            · exact ⟨e, by simp [merge_duplicate_keys, ht, he, exceptBind_error]⟩
        | Value.vBool b => exact ⟨e, by simp [merge_duplicate_keys, he, exceptBind_error]⟩
        | Value.vNum n => exact ⟨e, by simp [merge_duplicate_keys, he, exceptBind_error]⟩
        | Value.vStr s => exact ⟨e, by simp [merge_duplicate_keys, he, exceptBind_error]⟩
        | Value.vTree t => exact ⟨e, by simp [merge_duplicate_keys, he, exceptBind_error]⟩

/-- Witness for C10: the tree `{a: [], b: 1}`. -/
theorem merge_duplicate_keys_empty_group_raises_witness :
    ("a", Value.vList []) ∈ [("a", Value.vList []), ("b", Value.vNum 1)]
  ∧ ∃ e, merge_duplicate_keys [("a", Value.vList []), ("b", Value.vNum 1)] =
      Except.error e :=
  ⟨List.mem_cons_self _ _,
   merge_duplicate_keys_empty_group_raises
     [("a", Value.vList []), ("b", Value.vNum 1)] "a" (List.mem_cons_self _ _)⟩

/-! ## C3 and C4: `merge_duplicate_keys` -/

theorem updateAll_of_all_trees {items : List Value} (acc : Dict)
    (h : items.all isTree = true) :
    updateAll acc items = Except.ok (foldTreeDicts items acc) := by
  induction items generalizing acc with
  | nil => rfl
  | cons v rest ih =>
      simp only [List.all_cons, Bool.and_eq_true] at h
      match v, h.1 with
      | Value.vTree t, _ =>
          rw [updateAll]
          exact ih _ h.2

/-- The effect of `merge_duplicate_keys` on a tree free of raising entries:
entry-wise replacement of tree groups by their folds. -/
theorem merge_duplicate_keys_eq_map {d : Dict} (h : d.all goodEntry = true) :
    merge_duplicate_keys d = Except.ok (d.map mergeEntry) := by
  induction d with
  | nil => rfl
  | cons kv rest ih =>
      obtain ⟨k, v⟩ := kv
      simp only [List.all_cons, Bool.and_eq_true] at h
      have hrest := ih h.2
      match v, h.1 with
      | Value.vList (first :: more), hgood =>
          by_cases ht : isTree first
          · have hall : (first :: more).all isTree = true := by
              simp only [goodEntry, ht, Bool.not_true, Bool.false_or] at hgood
              exact hgood
            match first, ht with
            | Value.vTree t, _ =>
                simp [merge_duplicate_keys, isTree, updateAll_of_all_trees _ hall, hrest,
                  exceptBind_ok, mergeEntry]
          · match first, ht with
            | Value.vBool b, _ =>
                simp [merge_duplicate_keys, isTree, hrest, exceptBind_ok, mergeEntry]
            | Value.vNum n, _ =>
                simp [merge_duplicate_keys, isTree, hrest, exceptBind_ok, mergeEntry]
            | Value.vStr s, _ =>
                simp [merge_duplicate_keys, isTree, hrest, exceptBind_ok, mergeEntry]
            | Value.vList l, _ =>
                simp [merge_duplicate_keys, isTree, hrest, exceptBind_ok, mergeEntry]
      | Value.vBool b, _ =>
          simp [merge_duplicate_keys, hrest, exceptBind_ok, mergeEntry]
      | Value.vNum n, _ =>
          simp [merge_duplicate_keys, hrest, exceptBind_ok, mergeEntry]
      | Value.vStr s, _ =>
          simp [merge_duplicate_keys, hrest, exceptBind_ok, mergeEntry]
      | Value.vTree t, _ =>
          simp [merge_duplicate_keys, hrest, exceptBind_ok, mergeEntry]

/-- C3 counterexample: on the tree `{a: []}` (an empty list is vacuously a
list of trees) `merge_duplicate_keys` raises instead of replacing the entry
with the empty-fold tree and returning the receiver. -/
theorem merge_duplicate_keys_empty_group_counterexample :
    merge_duplicate_keys [("a", Value.vList [])] = Except.error PyError.indexError
  ∧ merge_duplicate_keys [("a", Value.vList [])] ≠
      Except.ok [("a", Value.vTree [])] :=
  ⟨rfl, fun hc => Except.noConfusion hc⟩

/-- C3 (amended): on every tree with no empty list value and whose list
values with a tree first element consist of trees only,
`merge_duplicate_keys` succeeds, replacing each such group by the single
tree folded from its elements in list order (later entries overwriting
earlier ones on key collision, via `dictUpdate`) and keeping every other
entry unchanged, and returns the resulting tree. -/
theorem merge_duplicate_keys_spec (d : Dict) (h : d.all goodEntry = true) :
    merge_duplicate_keys d = Except.ok (d.map mergeEntry) :=
  merge_duplicate_keys_eq_map h

/-- Witness for C3 on `{a: [{x:1}, {x:2, y:3}], b: 4}`. -/
theorem merge_duplicate_keys_spec_witness :
    ([("a", Value.vList [Value.vTree [("x", Value.vNum 1)],
        Value.vTree [("x", Value.vNum 2), ("y", Value.vNum 3)]]),
      ("b", Value.vNum 4)].all goodEntry = true)
  ∧ merge_duplicate_keys
      [("a", Value.vList [Value.vTree [("x", Value.vNum 1)],
          Value.vTree [("x", Value.vNum 2), ("y", Value.vNum 3)]]),
       ("b", Value.vNum 4)] =
      Except.ok ([("a", Value.vList [Value.vTree [("x", Value.vNum 1)],
          Value.vTree [("x", Value.vNum 2), ("y", Value.vNum 3)]]),
        ("b", Value.vNum 4)].map mergeEntry) :=
  ⟨rfl, merge_duplicate_keys_spec _ rfl⟩

theorem merge_duplicate_keys_of_no_lists {d : Dict}
    (h : ∀ kv ∈ d, isList kv.2 = false) :
    merge_duplicate_keys d = Except.ok d := by
  induction d with
  | nil => rfl
  | cons kv rest ih =>
      obtain ⟨k, v⟩ := kv
      have hrest := ih fun kv hkv => h kv (List.mem_cons_of_mem _ hkv)
      have hv : isList v = false := h (k, v) (List.mem_cons_self _ _)
      match v, hv with
      | Value.vBool b, _ => simp [merge_duplicate_keys, hrest, exceptBind_ok]
      | Value.vNum n, _ => simp [merge_duplicate_keys, hrest, exceptBind_ok]
      | Value.vStr s, _ => simp [merge_duplicate_keys, hrest, exceptBind_ok]
      | Value.vTree t, _ => simp [merge_duplicate_keys, hrest, exceptBind_ok]

/-- C4: on a tree whose grouped (list) values are non-empty groups of trees
without colliding keys, a second `merge_duplicate_keys` leaves the result of
the first unchanged. -/
theorem merge_duplicate_keys_idempotent (d r : Dict)
    (hg : d.all groupedTreesOk = true)
    (h1 : merge_duplicate_keys d = Except.ok r) :
    merge_duplicate_keys r = Except.ok r := by
  simp only [List.all_eq_true] at hg
  have hgood : d.all goodEntry = true := by
    simp only [List.all_eq_true]
    intro kv hkv
    have := hg kv hkv
    obtain ⟨k, v⟩ := kv
    match v, this with
    | Value.vList items, hv =>
        simp only [groupedTreesOk, Bool.and_eq_true] at hv
        match items, hv.1.1 with
        | it :: more, _ =>
            simp only [goodEntry]
            rw [hv.1.2]
            simp
    | Value.vBool b, _ => rfl
    | Value.vNum n, _ => rfl
    | Value.vStr s, _ => rfl
    | Value.vTree t, _ => rfl
  rw [merge_duplicate_keys_eq_map hgood] at h1
  injection h1 with h1
  subst h1
  apply merge_duplicate_keys_of_no_lists
  intro kv hkv
  rw [List.mem_map] at hkv
  obtain ⟨⟨k, v⟩, hmem, hkv⟩ := hkv
  have := hg _ hmem
  match v, this with
  | Value.vList items, hv =>
      simp only [groupedTreesOk, Bool.and_eq_true] at hv
      match items, hv.1.1, hv.1.2 with
      | Value.vTree t :: more, _, _ =>
          subst hkv
          rfl
      | Value.vBool b :: more, _, hall => simp [isTree] at hall
      | Value.vNum n :: more, _, hall => simp [isTree] at hall
      | Value.vStr s :: more, _, hall => simp [isTree] at hall
      | Value.vList l :: more, _, hall => simp [isTree] at hall
  | Value.vBool b, _ => subst hkv; rfl
  | Value.vNum n, _ => subst hkv; rfl
  | Value.vStr s, _ => subst hkv; rfl
  | Value.vTree t, _ => subst hkv; rfl

/-- Witness for C4 on `{a: [{x:1}, {y:2}]}`. -/
theorem merge_duplicate_keys_idempotent_witness :
    ([("a", Value.vList [Value.vTree [("x", Value.vNum 1)],
        Value.vTree [("y", Value.vNum 2)]])].all groupedTreesOk = true)
  ∧ merge_duplicate_keys
      [("a", Value.vList [Value.vTree [("x", Value.vNum 1)],
        Value.vTree [("y", Value.vNum 2)]])] =
      Except.ok [("a", Value.vTree [("x", Value.vNum 1), ("y", Value.vNum 2)])]
  ∧ merge_duplicate_keys
      [("a", Value.vTree [("x", Value.vNum 1), ("y", Value.vNum 2)])] =
      Except.ok [("a", Value.vTree [("x", Value.vNum 1), ("y", Value.vNum 2)])] :=
  ⟨rfl, rfl,
   merge_duplicate_keys_idempotent
     [("a", Value.vList [Value.vTree [("x", Value.vNum 1)],
        Value.vTree [("y", Value.vNum 2)]])]
     [("a", Value.vTree [("x", Value.vNum 1), ("y", Value.vNum 2)])] rfl rfl⟩

/-! ## C2: merge policies of `parse_folder_as_one_file` -/

theorem mergeFileNoOverwrite_nil (d : Dict) : mergeFileNoOverwrite d [] = Except.ok d := rfl

theorem mergeFileNoOverwrite_cons (d : Dict) (kv : String × Value) (m : Dict) :
    mergeFileNoOverwrite d (kv :: m) =
      mergeKeyNoOverwrite d kv.1 kv.2 >>= fun d' => mergeFileNoOverwrite d' m := rfl

/-- The loop body of the no-overwrite policy is collision resolution
followed by in-place assignment. -/
theorem mergeKeyNoOverwrite_eq_resolve (d : Dict) (k : String) (v : Value) :
    mergeKeyNoOverwrite d k v =
      Except.map (setKey d k) (resolveCollision (lookup d k) v) := by
  rw [mergeKeyNoOverwrite]
  match lookup d k with
  | none => rfl
  | some (Value.vTree t) => cases v <;> rfl
  | some (Value.vList l) => rfl
  | some (Value.vBool b) => rfl
  | some (Value.vNum n) => rfl
  | some (Value.vStr s) => rfl

theorem mergeFileNoOverwrite_lookup_of_none :
    ∀ (m d r : Dict) (k : String), lookup m k = none →
      mergeFileNoOverwrite d m = Except.ok r → lookup r k = lookup d k := by
  intro m
  induction m with
  | nil =>
      intro d r k _ h2
      injection h2 with h2
      rw [h2]
  | cons kv rest ih =>
      intro d r k h1 h2
      obtain ⟨k', v'⟩ := kv
      simp only [lookup] at h1
      by_cases hk : k' = k
      · rw [if_pos hk] at h1
        exact absurd h1 (by simp)
      · rw [if_neg hk] at h1
        rw [mergeFileNoOverwrite_cons] at h2
        cases hstep : mergeKeyNoOverwrite d k' v' with
        | error e => rw [hstep, exceptBind_error] at h2; exact absurd h2 (by simp)
        | ok d' =>
            rw [hstep, exceptBind_ok] at h2
            rw [ih d' r k h1 h2]
            rw [mergeKeyNoOverwrite_eq_resolve] at hstep
            cases hres : resolveCollision (lookup d k') v' with
            | error e => rw [hres] at hstep; exact absurd hstep (by simp [Except.map])
            | ok w =>
                rw [hres] at hstep
                simp only [Except.map] at hstep
                injection hstep with hstep
                rw [← hstep, lookup_setKey_of_ne _ _ hk]

theorem mergeFileNoOverwrite_lookup_of_some :
    ∀ (m d r : Dict) (k : String) (v2 : Value),
      (m.map Prod.fst).Nodup → lookup m k = some v2 →
      mergeFileNoOverwrite d m = Except.ok r →
      ∃ w, resolveCollision (lookup d k) v2 = Except.ok w ∧ lookup r k = some w := by
  intro m
  induction m with
  | nil => intro d r k v2 _ h1 _; exact absurd h1 (by simp [lookup])
  | cons kv rest ih =>
      intro d r k v2 hnd h1 h2
      obtain ⟨k', v'⟩ := kv
      simp only [List.map_cons, List.nodup_cons] at hnd
      simp only [lookup] at h1
      rw [mergeFileNoOverwrite_cons] at h2
      by_cases hk : k' = k
      · rw [if_pos hk] at h1
        injection h1 with h1
        subst h1
        subst hk
        cases hstep : mergeKeyNoOverwrite d k' v' with
        | error e => rw [hstep, exceptBind_error] at h2; exact absurd h2 (by simp)
        | ok d' =>
            rw [hstep, exceptBind_ok] at h2
            rw [mergeKeyNoOverwrite_eq_resolve] at hstep
            cases hres : resolveCollision (lookup d k') v' with
            | error e => rw [hres] at hstep; exact absurd hstep (by simp [Except.map])
            | ok w =>
                refine ⟨w, rfl, ?_⟩
                rw [hres] at hstep
                simp only [Except.map] at hstep
                injection hstep with hstep
                have hrest : lookup rest k' = none :=
                  lookup_eq_none_of_not_mem_keys hnd.1
                rw [mergeFileNoOverwrite_lookup_of_none rest d' r k' hrest h2, ← hstep,
                  lookup_setKey_self]
      · rw [if_neg hk] at h1
        cases hstep : mergeKeyNoOverwrite d k' v' with
        | error e => rw [hstep, exceptBind_error] at h2; exact absurd h2 (by simp)
        | ok d' =>
            rw [hstep, exceptBind_ok] at h2
            obtain ⟨w, hw, hlook⟩ := ih d' r k v2 hnd.2 h1 h2
            refine ⟨w, ?_, hlook⟩
            rw [← hw]
            rw [mergeKeyNoOverwrite_eq_resolve] at hstep
            cases hres : resolveCollision (lookup d k') v' with
            | error e => rw [hres] at hstep; exact absurd hstep (by simp [Except.map])
            | ok w' =>
                rw [hres] at hstep
                simp only [Except.map] at hstep
                injection hstep with hstep
                rw [← hstep, lookup_setKey_of_ne _ _ hk]

/-- C2: the two merge policies of `parse_folder_as_one_file`.  Under
`overwrite_duplicate_toplevel_keys=true` the per-file step is a plain dict
update, so a later file's value for a colliding key replaces the earlier one
wholesale and keys of only one file pass through.  Under `false`, for a
colliding key: existing tree and new tree shallow-merge (new keys
overwriting old inside that tree), an existing list gets the new value
appended, an existing scalar becomes the pair list `[old, new]`; absent keys
are assigned.  On the spec's example files, `{a: {x:1}}` then `{a: {y:2}}`
give `a = {y:2}` under `true` and `a = {x:1, y:2}` under `false`. -/
theorem merge_policy_cases (d1 d2 r : Dict) (k : String) (v2 : Value)
    (hnd : (d2.map Prod.fst).Nodup) :
    mergeFile true d1 d2 = Except.ok (dictUpdate d1 d2)
  ∧ (lookup d2 k = some v2 → lookup (dictUpdate d1 d2) k = some v2)
  ∧ (lookup d2 k = none → lookup (dictUpdate d1 d2) k = lookup d1 k)
  ∧ (mergeFile false d1 d2 = Except.ok r →
       (lookup d2 k = none → lookup r k = lookup d1 k)
     ∧ (lookup d2 k = some v2 →
          (∀ t t2, lookup d1 k = some (Value.vTree t) → v2 = Value.vTree t2 →
             lookup r k = some (Value.vTree (dictUpdate t t2)))
        ∧ (∀ l, lookup d1 k = some (Value.vList l) →
             lookup r k = some (Value.vList (l ++ [v2])))
        ∧ (∀ w, lookup d1 k = some w → isTree w = false → isList w = false →
             lookup r k = some (Value.vList [w, v2]))
        ∧ (lookup d1 k = none → lookup r k = some v2)))
  ∧ parse_folder_as_one_file ["file1.txt", "file2.txt"] examplePoliciesParse true =
      Except.ok [("a", Value.vTree [("y", Value.vNum 2)])]
  ∧ parse_folder_as_one_file ["file1.txt", "file2.txt"] examplePoliciesParse false =
      Except.ok [("a", Value.vTree [("x", Value.vNum 1), ("y", Value.vNum 2)])] := by
  have hsorted : sortPaths ["file1.txt", "file2.txt"] = ["file1.txt", "file2.txt"] := by
    simp [sortPaths, List.insertionSort, List.orderedInsert]
    decide
  refine ⟨rfl, fun h => lookup_dictUpdate_of_some _ _ _ _ hnd h,
    fun h => lookup_dictUpdate_of_none _ h, fun hm => ⟨?_, fun h => ⟨?_, ?_, ?_, ?_⟩⟩,
    ?_, ?_⟩
  · intro h
    exact mergeFileNoOverwrite_lookup_of_none d2 d1 r k h hm
  · intro t t2 hd1 hv2
    obtain ⟨w, hw, hlook⟩ := mergeFileNoOverwrite_lookup_of_some d2 d1 r k v2 hnd h hm
    rw [hd1, hv2] at hw
    simp only [resolveCollision] at hw
    injection hw with hw
    rw [hlook, ← hw]
  · intro l hd1
    obtain ⟨w, hw, hlook⟩ := mergeFileNoOverwrite_lookup_of_some d2 d1 r k v2 hnd h hm
    rw [hd1] at hw
    simp only [resolveCollision] at hw
    injection hw with hw
    rw [hlook, ← hw]
  · intro w0 hd1 htree hlist
    obtain ⟨w, hw, hlook⟩ := mergeFileNoOverwrite_lookup_of_some d2 d1 r k v2 hnd h hm
    rw [hd1] at hw
    match w0, htree, hlist with
    | Value.vBool b, _, _ =>
        simp only [resolveCollision] at hw
        injection hw with hw
        rw [hlook, ← hw]
    | Value.vNum n, _, _ =>
        simp only [resolveCollision] at hw
        injection hw with hw
        rw [hlook, ← hw]
    | Value.vStr s, _, _ =>
        simp only [resolveCollision] at hw
        injection hw with hw
        rw [hlook, ← hw]
  · intro hd1
    obtain ⟨w, hw, hlook⟩ := mergeFileNoOverwrite_lookup_of_some d2 d1 r k v2 hnd h hm
    rw [hd1] at hw
    simp only [resolveCollision] at hw
    injection hw with hw
    rw [hlook, ← hw]
  · rw [parse_folder_as_one_file, hsorted]
    rfl
  · rw [parse_folder_as_one_file, hsorted]
    rfl

/-- Witness for C2 on the spec's example files. -/
theorem merge_policy_cases_witness :
    (([("a", Value.vTree [("y", Value.vNum 2)])] : Dict).map Prod.fst).Nodup
  ∧ mergeFile true [("a", Value.vTree [("x", Value.vNum 1)])]
      [("a", Value.vTree [("y", Value.vNum 2)])] =
      Except.ok (dictUpdate [("a", Value.vTree [("x", Value.vNum 1)])]
        [("a", Value.vTree [("y", Value.vNum 2)])])
  ∧ parse_folder_as_one_file ["file1.txt", "file2.txt"] examplePoliciesParse false =
      Except.ok [("a", Value.vTree [("x", Value.vNum 1), ("y", Value.vNum 2)])] := by
  have hnd : (([("a", Value.vTree [("y", Value.vNum 2)])] : Dict).map Prod.fst).Nodup := by
    simp
  have h := merge_policy_cases [("a", Value.vTree [("x", Value.vNum 1)])]
    [("a", Value.vTree [("y", Value.vNum 2)])]
    [("a", Value.vTree [("x", Value.vNum 1), ("y", Value.vNum 2)])]
    "a" (Value.vTree [("y", Value.vNum 2)]) hnd
  exact ⟨hnd, h.1, h.2.2.2.2.2⟩

/-! ## C1: `find_all_recursively` -/

theorem boundValues_nil (key : String) : boundValues key [] = [] := rfl

theorem boundValues_cons (key k : String) (v : Value) (bs : List (String × Value)) :
    boundValues key ((k, v) :: bs) =
      (if k = key then [v] else []) ++ boundValues key bs := by
  by_cases h : k = key <;> simp [boundValues, List.filter_cons, h]

theorem boundValues_append (key : String) (a b : List (String × Value)) :
    boundValues key (a ++ b) = boundValues key a ++ boundValues key b := by
  simp [boundValues, List.filter_append]

/-- C1 counterexample: in the tree `{k: {k: 1}}` the value `1` is bound to
`k` at depth 2 (it appears in the full pre-order enumeration of bindings),
but `find_all_recursively("k")` does not yield it — having yielded the
outer value, the traversal does not descend into it. -/
theorem find_all_recursively_counterexample :
    ("k", Value.vNum 1) ∈ allBindings [("k", Value.vTree [("k", Value.vNum 1)])]
  ∧ Value.vNum 1 ∉ find_all_recursively "k" [("k", Value.vTree [("k", Value.vNum 1)])]
  ∧ find_all_recursively "k" [("k", Value.vTree [("k", Value.vNum 1)])] ≠
      boundValues "k" (allBindings [("k", Value.vTree [("k", Value.vNum 1)])]) := by
  refine ⟨?_, ?_, ?_⟩
  · simp [allBindings, valueBindings, itemsBindings]
  · simp [find_all_recursively, farValue]
  · simp [find_all_recursively, farValue, allBindings, valueBindings, itemsBindings,
      boundValues]

/-- C1 (amended): `find_all_recursively` performs the depth-first pre-order
traversal that descends into nested trees and into the tree items of list
values, except that it does not descend into the value of a matched key;
it yields exactly the values bound to the key among the bindings so
reached, in traversal order.  For the spec's example tree
`{a: {k: 1}, b: [{k: 2}, {k: 3}]}` it yields `[1, 2, 3]`. -/
theorem find_all_recursively_spec :
    (∀ (key : String) (d : Dict),
        find_all_recursively key d = boundValues key (reachableBindings key d))
  ∧ find_all_recursively "k"
      [("a", Value.vTree [("k", Value.vNum 1)]),
       ("b", Value.vList [Value.vTree [("k", Value.vNum 2)],
          Value.vTree [("k", Value.vNum 3)]])] =
      [Value.vNum 1, Value.vNum 2, Value.vNum 3] := by
  constructor
  · intro key
    refine find_all_recursively.induct key
      (fun d => find_all_recursively key d = boundValues key (reachableBindings key d))
      (fun v => farValue key v = boundValues key (valueReachable key v))
      (fun items => farItems key items = boundValues key (itemsReachable key items))
      ?_ ?_ ?_ ?_ ?_ ?_ ?_ ?_
    · intro t ih
      simpa [farValue, valueReachable] using ih
    · intro items ih
      simpa [farValue, valueReachable] using ih
    · intro v hnt hnl
      match v with
      | Value.vBool b => simp [farValue, valueReachable, boundValues]
      | Value.vNum n => simp [farValue, valueReachable, boundValues]
      | Value.vStr s => simp [farValue, valueReachable, boundValues]
      | Value.vList items => exact absurd rfl (hnl items)
      | Value.vTree t => exact absurd rfl (hnt t)
    · simp [farItems, itemsReachable, boundValues]
    · intro t rest ih1 ih3
      simp [farItems, itemsReachable, boundValues_append, ih1, ih3]
    · intro head rest hnt ih3
      match head with
      | Value.vBool b => simpa [farItems, itemsReachable] using ih3
      | Value.vNum n => simpa [farItems, itemsReachable] using ih3
      | Value.vStr s => simpa [farItems, itemsReachable] using ih3
      | Value.vList items => simpa [farItems, itemsReachable] using ih3
      | Value.vTree t => exact absurd rfl (hnt t)
    · simp [find_all_recursively, reachableBindings, boundValues]
    · intro k v rest ih2 ih1
      by_cases hk : k = key
      · simp [find_all_recursively, reachableBindings, hk, boundValues_cons,
          boundValues_append, ih1]
      · simp [find_all_recursively, reachableBindings, hk, boundValues_cons,
          boundValues_append, ih1, ih2]
  · simp [find_all_recursively, farValue, farItems]

/-! ## C9: idempotence of the `UnmarkedListWorkaround` rewrite -/

theorem isSpace_ne_eq {c : Char} (h : isSpace c = true) : c ≠ '=' := by
  intro heq
  subst heq
  exact absurd h (by decide)

theorem isClassChar_ne_eq {c : Char} (h : isClassChar c = true) : c ≠ '=' := by
  intro heq
  subst heq
  exact absurd h (by decide)

theorem takeWhile_append_all {p : Char → Bool} :
    ∀ {l1 l2 : List Char}, (∀ c ∈ l1, p c = true) →
      (l1 ++ l2).takeWhile p = l1 ++ l2.takeWhile p := by
  intro l1
  induction l1 with
  | nil => intro l2 _; rfl
  | cons a l ih =>
      intro l2 h
      rw [List.cons_append, List.takeWhile_cons,
        if_pos (h a (List.mem_cons_self _ _)), ih fun c hc => h c (List.mem_cons_of_mem _ hc),
        List.cons_append]

theorem dropWhile_append_all {p : Char → Bool} :
    ∀ {l1 l2 : List Char}, (∀ c ∈ l1, p c = true) →
      (l1 ++ l2).dropWhile p = l2.dropWhile p := by
  intro l1
  induction l1 with
  | nil => intro l2 _; rfl
  | cons a l ih =>
      intro l2 h
      rw [List.cons_append, List.dropWhile_cons,
        if_pos (h a (List.mem_cons_self _ _)), ih fun c hc => h c (List.mem_cons_of_mem _ hc)]

theorem dropWhile_head_false {p : Char → Bool} :
    ∀ {l : List Char} {d : Char} {t : List Char}, l.dropWhile p = d :: t → p d = false := by
  intro l
  induction l with
  | nil => intro d t h; exact absurd h (by simp)
  | cons a l ih =>
      intro d t h
      rw [List.dropWhile_cons] at h
      by_cases hp : p a = true
      · rw [if_pos hp] at h
        exact ih h
      · rw [if_neg hp] at h
        injection h with h1 _
        rw [← h1]
        exact Bool.not_eq_true _ ▸ hp

theorem matchAt_cons_not_eq {c : Char} {t : List Char} (h : c ≠ '=') :
    matchAt (c :: t) = none := by
  simp [matchAt, h]

theorem matchAt_cons_eq (t : List Char) :
    matchAt ('=' :: t) =
      (if (t.dropWhile isSpace).take 4 = ['l', 'i', 's', 't'] then
        match matchTail ((t.dropWhile isSpace).drop 4) with
        | some (con, rem) =>
            some ('=' :: t.takeWhile isSpace, ['l', 'i', 's', 't'] ++ con, rem)
        | none => none
      else none) := by
  simp [matchAt]

theorem sub_nil : subUnmarkedList [] = [] := by
  simp [subUnmarkedList]

theorem sub_cons_match {c : Char} {rest g1 g2 rem : List Char}
    (h : matchAt (c :: rest) = some (g1, g2, rem)) :
    subUnmarkedList (c :: rest) =
      g1 ++ '\x7b' :: ' ' :: (g2 ++ ' ' :: '\x7d' :: subUnmarkedList rem) := by
  rw [subUnmarkedList]
  split
  next g1' g2' rem' heq =>
    rw [h] at heq
    injection heq with heq
    injection heq with h1 heq
    injection heq with h2 h3
    rw [h1, h2, h3]
  next heq => rw [h] at heq; exact absurd heq (by simp)

theorem sub_cons_nomatch {c : Char} {rest : List Char}
    (h : matchAt (c :: rest) = none) :
    subUnmarkedList (c :: rest) = c :: subUnmarkedList rest := by
  rw [subUnmarkedList]
  split
  next g1' g2' rem' heq => rw [h] at heq; exact absurd heq (by simp)
  next => rfl

theorem matchTail_chars {X con rem : List Char}
    (h : matchTail X = some (con, rem)) :
    ∀ c ∈ con, isSpace c = true ∨ isClassChar c = true := by
  simp only [matchTail] at h
  split at h
  · exact absurd h (by simp)
  · split at h
    · injection h with h'
      injection h' with h1 _
      subst h1
      intro c hc
      rcases List.mem_append.mp hc with hw | hcl
      · exact Or.inl (List.mem_takeWhile_imp hw)
      · exact Or.inr (List.mem_takeWhile_imp hcl)
    · split at h
      · injection h with h'
        injection h' with h1 _
        subst h1
        intro c hc
        exact Or.inl (List.mem_takeWhile_imp (List.take_subset _ _ hc))
      · exact absurd h (by simp)

theorem matchAt_parts {s g1 g2 rem : List Char}
    (h : matchAt s = some (g1, g2, rem)) :
    ∃ ws tl, g1 = '=' :: ws ∧ (∀ c ∈ ws, isSpace c = true) ∧
      g2 = 'l' :: 'i' :: 's' :: 't' :: tl ∧
      (∀ c ∈ tl, isSpace c = true ∨ isClassChar c = true) := by
  match s, h with
  | c :: t, h =>
    simp only [matchAt] at h
    split at h
    next hc =>
      split at h
      · split at h
        next con rem' hmt =>
          injection h with h'
          injection h' with h1 h'
          injection h' with h2 h3
          refine ⟨t.takeWhile isSpace, con, h1.symm, fun c hc => List.mem_takeWhile_imp hc,
            h2.symm, matchTail_chars hmt⟩
        · exact absurd h (by simp)
      · exact absurd h (by simp)
    · exact absurd h (by simp)

theorem sub_append_not_eq :
    ∀ {P T : List Char}, (∀ c ∈ P, c ≠ '=') →
      subUnmarkedList (P ++ T) = P ++ subUnmarkedList T := by
  intro P
  induction P with
  | nil => intro T _; rfl
  | cons a l ih =>
      intro T h
      rw [List.cons_append,
        sub_cons_nomatch (matchAt_cons_not_eq (h a (List.mem_cons_self _ _))),
        ih fun c hc => h c (List.mem_cons_of_mem _ hc), List.cons_append]

theorem sub_head (s : List Char) : (subUnmarkedList s).head? = s.head? := by
  match s with
  | [] => rw [sub_nil]
  | c :: rest =>
      cases hma : matchAt (c :: rest) with
      | some x =>
          obtain ⟨g1, g2, rem⟩ := x
          obtain ⟨hs, _⟩ := matchAt_decomp hma
          obtain ⟨ws, tl, hg1, _, _, _⟩ := matchAt_parts hma
          rw [sub_cons_match hma, hg1]
          have hc : c = '=' := by
            rw [hg1] at hs
            injection hs
          rw [hc]
          rfl
      | none => rw [sub_cons_nomatch hma]; rfl

theorem sub_cons_exists (c : Char) (t : List Char) :
    ∃ z, subUnmarkedList (c :: t) = c :: z := by
  have h := sub_head (c :: t)
  cases hsub : subUnmarkedList (c :: t) with
  | nil => rw [hsub] at h; exact absurd h (by simp)
  | cons a z =>
      rw [hsub] at h
      injection h with h
      rw [h]
      exact ⟨z, rfl⟩

theorem matchTail_none_sub : ∀ {X : List Char}, matchTail X = none →
    matchTail (subUnmarkedList X) = none := by
  intro X h
  match X with
  | [] => rw [sub_nil]; exact h
  | x :: X' =>
      by_cases hx : isSpace x = true
      · have hW : (x :: X').takeWhile isSpace = x :: (X'.takeWhile isSpace) := by
          rw [List.takeWhile_cons, if_pos hx]
        have hWall : ∀ c ∈ (x :: X').takeWhile isSpace, isSpace c = true :=
          fun c hc => List.mem_takeWhile_imp hc
        have hXWD : (x :: X').takeWhile isSpace ++ (x :: X').dropWhile isSpace = x :: X' :=
          List.takeWhile_append_dropWhile _ _
        have hsub : subUnmarkedList (x :: X') =
            (x :: X').takeWhile isSpace ++ subUnmarkedList ((x :: X').dropWhile isSpace) := by
          conv_lhs => rw [← hXWD]
          exact sub_append_not_eq fun c hc => isSpace_ne_eq (hWall c hc)
        have hsubD : (subUnmarkedList ((x :: X').dropWhile isSpace)).takeWhile isSpace = []
            ∧ (subUnmarkedList ((x :: X').dropWhile isSpace)).dropWhile isSpace =
                subUnmarkedList ((x :: X').dropWhile isSpace)
            ∧ headIsClass (subUnmarkedList ((x :: X').dropWhile isSpace)) =
                headIsClass ((x :: X').dropWhile isSpace) := by
          match hD : (x :: X').dropWhile isSpace with
          | [] => rw [sub_nil]; exact ⟨rfl, rfl, rfl⟩
          | d :: D2 =>
              have hd : isSpace d = false := dropWhile_head_false hD
              obtain ⟨z, hz⟩ := sub_cons_exists d D2
              rw [hz, List.takeWhile_cons, if_neg (by rw [hd]; simp),
                List.dropWhile_cons, if_neg (by rw [hd]; simp)]
              exact ⟨rfl, rfl, rfl⟩
        have htake : (subUnmarkedList (x :: X')).takeWhile isSpace =
            (x :: X').takeWhile isSpace := by
          rw [hsub, takeWhile_append_all hWall, hsubD.1, List.append_nil]
        have hdrop : (subUnmarkedList (x :: X')).dropWhile isSpace =
            subUnmarkedList ((x :: X').dropWhile isSpace) := by
          rw [hsub, dropWhile_append_all hWall, hsubD.2.1]
        have hWne : ((x :: X').takeWhile isSpace).isEmpty = false := by
          rw [hW]; rfl
        simp only [matchTail] at h ⊢
        rw [htake, hdrop, hWne] at *
        simp only [Bool.false_eq_true, if_false] at h ⊢
        rw [hsubD.2.2]
        by_cases hcl : headIsClass ((x :: X').dropWhile isSpace) = true
        · rw [if_pos hcl] at h
          exact absurd h (by simp)
        · rw [if_neg hcl] at h ⊢
          split at h
          · exact absurd h (by simp)
          · next hcond => rw [if_neg hcond]
      · obtain ⟨z, hz⟩ := sub_cons_exists x X'
        rw [hz]
        simp [matchTail, List.takeWhile_cons, hx]

theorem sub_list_prefix (u : List Char) :
    (u.take 4 = ['l', 'i', 's', 't'] ∧
      subUnmarkedList u = 'l' :: 'i' :: 's' :: 't' :: subUnmarkedList (u.drop 4))
  ∨ (u.take 4 ≠ ['l', 'i', 's', 't'] ∧
      (subUnmarkedList u).take 4 ≠ ['l', 'i', 's', 't']) := by
  match u with
  | [] =>
      right
      rw [sub_nil]
      exact ⟨by simp, by simp⟩
  | a :: u1 =>
      by_cases ha : a = 'l'
      · subst ha
        have hs1 : subUnmarkedList ('l' :: u1) = 'l' :: subUnmarkedList u1 :=
          sub_cons_nomatch (matchAt_cons_not_eq (by decide))
        match u1 with
        | [] =>
            right
            rw [hs1, sub_nil]
            exact ⟨by simp, by simp⟩
        | b :: u2 =>
            by_cases hb : b = 'i'
            · subst hb
              have hs2 : subUnmarkedList ('i' :: u2) = 'i' :: subUnmarkedList u2 :=
                sub_cons_nomatch (matchAt_cons_not_eq (by decide))
              match u2 with
              | [] =>
                  right
                  rw [hs1, hs2, sub_nil]
                  exact ⟨by simp, by simp⟩
              | c :: u3 =>
                  by_cases hc : c = 's'
                  · subst hc
                    have hs3 : subUnmarkedList ('s' :: u3) = 's' :: subUnmarkedList u3 :=
                      sub_cons_nomatch (matchAt_cons_not_eq (by decide))
                    match u3 with
                    | [] =>
                        right
                        rw [hs1, hs2, hs3, sub_nil]
                        exact ⟨by simp, by simp⟩
                    | d :: u4 =>
                        by_cases hd : d = 't'
                        · subst hd
                          have hs4 : subUnmarkedList ('t' :: u4) =
                              't' :: subUnmarkedList u4 :=
                            sub_cons_nomatch (matchAt_cons_not_eq (by decide))
                          left
                          rw [hs1, hs2, hs3, hs4]
                          exact ⟨rfl, rfl⟩
                        · right
                          obtain ⟨z, hz⟩ := sub_cons_exists d u4
                          rw [hs1, hs2, hs3, hz]
                          constructor
                          · intro hcon
                            injection hcon with _ hcon
                            injection hcon with _ hcon
                            injection hcon with _ hcon
                            injection hcon with h4 _
                            exact hd h4
                          · intro hcon
                            injection hcon with _ hcon
                            injection hcon with _ hcon
                            injection hcon with _ hcon
                            injection hcon with h4 _
                            exact hd h4
                  · right
                    obtain ⟨z, hz⟩ := sub_cons_exists c u3
                    rw [hs1, hs2, hz]
                    constructor
                    · intro hcon
                      injection hcon with _ hcon
                      injection hcon with _ hcon
                      injection hcon with h3 _
                      exact hc h3
                    · intro hcon
                      injection hcon with _ hcon
                      injection hcon with _ hcon
                      injection hcon with h3 _
                      exact hc h3
            · right
              obtain ⟨z, hz⟩ := sub_cons_exists b u2
              rw [hs1, hz]
              constructor
              · intro hcon
                injection hcon with _ hcon
                injection hcon with h2 _
                exact hb h2
              · intro hcon
                injection hcon with _ hcon
                injection hcon with h2 _
                exact hb h2
      · right
        obtain ⟨z, hz⟩ := sub_cons_exists a u1
        rw [hz]
        constructor
        · intro hcon
          injection hcon with h1 _
          exact ha h1
        · intro hcon
          injection hcon with h1 _
          exact ha h1

theorem sub_space_split (r : List Char) :
    (subUnmarkedList r).takeWhile isSpace = r.takeWhile isSpace
  ∧ (subUnmarkedList r).dropWhile isSpace = subUnmarkedList (r.dropWhile isSpace) := by
  have hWall : ∀ x ∈ r.takeWhile isSpace, isSpace x = true :=
    fun x hx => List.mem_takeWhile_imp hx
  have hsub : subUnmarkedList r =
      r.takeWhile isSpace ++ subUnmarkedList (r.dropWhile isSpace) := by
    conv_lhs => rw [← List.takeWhile_append_dropWhile isSpace r]
    exact sub_append_not_eq fun x hx => isSpace_ne_eq (hWall x hx)
  have hsubD : (subUnmarkedList (r.dropWhile isSpace)).takeWhile isSpace = []
      ∧ (subUnmarkedList (r.dropWhile isSpace)).dropWhile isSpace =
          subUnmarkedList (r.dropWhile isSpace) := by
    match hD : r.dropWhile isSpace with
    | [] => rw [sub_nil]; exact ⟨rfl, rfl⟩
    | d :: D2 =>
        have hd : isSpace d = false := dropWhile_head_false hD
        obtain ⟨z, hz⟩ := sub_cons_exists d D2
        rw [hz, List.takeWhile_cons, if_neg (by rw [hd]; simp),
          List.dropWhile_cons, if_neg (by rw [hd]; simp)]
        exact ⟨rfl, rfl⟩
  constructor
  · rw [hsub, takeWhile_append_all hWall, hsubD.1, List.append_nil]
  · rw [hsub, dropWhile_append_all hWall, hsubD.2]

theorem matchAt_none_sub {c : Char} {rest : List Char}
    (h : matchAt (c :: rest) = none) :
    matchAt (c :: subUnmarkedList rest) = none := by
  by_cases hc : c = '='
  · subst hc
    rw [matchAt_cons_eq] at h
    rw [matchAt_cons_eq, (sub_space_split rest).2]
    rcases sub_list_prefix (rest.dropWhile isSpace) with ⟨hL, hsubu⟩ | ⟨hL, hsubL⟩
    · rw [if_pos hL] at h
      have hmt : matchTail ((rest.dropWhile isSpace).drop 4) = none := by
        cases hmt' : matchTail ((rest.dropWhile isSpace).drop 4) with
        | some x =>
            obtain ⟨con, rem⟩ := x
            rw [hmt'] at h
            exact absurd h (by simp)
        | none => rfl
      rw [hsubu]
      have ht4 : ('l' :: 'i' :: 's' :: 't' ::
          subUnmarkedList ((rest.dropWhile isSpace).drop 4)).take 4 =
          ['l', 'i', 's', 't'] := rfl
      rw [if_pos ht4]
      have hd4 : ('l' :: 'i' :: 's' :: 't' ::
          subUnmarkedList ((rest.dropWhile isSpace).drop 4)).drop 4 =
          subUnmarkedList ((rest.dropWhile isSpace).drop 4) := rfl
      rw [hd4, matchTail_none_sub hmt]
    · rw [if_neg hsubL]
  · exact matchAt_cons_not_eq hc

theorem sub_replacement {s g1 g2 rem : List Char}
    (hma : matchAt s = some (g1, g2, rem)) (T : List Char) :
    subUnmarkedList (g1 ++ '\x7b' :: ' ' :: (g2 ++ ' ' :: '\x7d' :: T)) =
      g1 ++ '\x7b' :: ' ' :: (g2 ++ ' ' :: '\x7d' :: subUnmarkedList T) := by
  obtain ⟨ws, tl, hg1, hws, hg2, htl⟩ := matchAt_parts hma
  subst hg1
  subst hg2
  have hP : ∀ x ∈ ('\x7b' :: ' ' ::
      (('l' :: 'i' :: 's' :: 't' :: tl) ++ [' ', '\x7d']) : List Char), x ≠ '=' := by
    intro x hx
    simp only [List.mem_cons, List.mem_append] at hx
    rcases hx with h | h | (h | h | h | h | h) | h
    · subst h; decide
    · subst h; decide
    · subst h; decide
    · subst h; decide
    · subst h; decide
    · subst h; decide
    · rcases htl x h with hsp | hcl
      · exact isSpace_ne_eq hsp
      · exact isClassChar_ne_eq hcl
    · simp only [List.mem_cons, List.mem_singleton, List.not_mem_nil, or_false] at h
      rcases h with h | h
      · subst h; decide
      · subst h; decide
  have hA : ∀ (Z : List Char), '\x7b' :: ' ' ::
        (('l' :: 'i' :: 's' :: 't' :: tl) ++ ' ' :: '\x7d' :: Z) =
      ('\x7b' :: ' ' :: (('l' :: 'i' :: 's' :: 't' :: tl) ++ [' ', '\x7d'])) ++ Z := by
    intro Z
    simp only [List.cons_append, List.append_assoc, List.singleton_append,
      List.nil_append]
  have hstep3 : subUnmarkedList
      ('\x7b' :: ' ' :: (('l' :: 'i' :: 's' :: 't' :: tl) ++ ' ' :: '\x7d' :: T)) =
      '\x7b' :: ' ' ::
        (('l' :: 'i' :: 's' :: 't' :: tl) ++ ' ' :: '\x7d' :: subUnmarkedList T) := by
    rw [hA T, hA (subUnmarkedList T), sub_append_not_eq hP]
  have hdrop : (ws ++ '\x7b' :: ' ' ::
      (('l' :: 'i' :: 's' :: 't' :: tl) ++ ' ' :: '\x7d' :: T)).dropWhile isSpace =
      '\x7b' :: ' ' :: (('l' :: 'i' :: 's' :: 't' :: tl) ++ ' ' :: '\x7d' :: T) := by
    rw [dropWhile_append_all hws, List.dropWhile_cons,
      if_neg (show ¬ isSpace '\x7b' = true by decide)]
  have hcond : ¬ (('\x7b' :: ' ' ::
      (('l' :: 'i' :: 's' :: 't' :: tl) ++ ' ' :: '\x7d' :: T)).take 4 =
      ['l', 'i', 's', 't']) := by
    intro hcon
    injection hcon with h1 _
    exact absurd h1 (by decide)
  have hnomatch : matchAt ('=' :: (ws ++ '\x7b' :: ' ' ::
      (('l' :: 'i' :: 's' :: 't' :: tl) ++ ' ' :: '\x7d' :: T))) = none := by
    rw [matchAt_cons_eq, hdrop, if_neg hcond]
  calc subUnmarkedList (('=' :: ws) ++ '\x7b' :: ' ' ::
        (('l' :: 'i' :: 's' :: 't' :: tl) ++ ' ' :: '\x7d' :: T))
      = subUnmarkedList ('=' :: (ws ++ '\x7b' :: ' ' ::
          (('l' :: 'i' :: 's' :: 't' :: tl) ++ ' ' :: '\x7d' :: T))) := by
        rw [List.cons_append]
    _ = '=' :: subUnmarkedList (ws ++ '\x7b' :: ' ' ::
          (('l' :: 'i' :: 's' :: 't' :: tl) ++ ' ' :: '\x7d' :: T)) := by
        rw [sub_cons_nomatch hnomatch]
    _ = '=' :: (ws ++ subUnmarkedList ('\x7b' :: ' ' ::
          (('l' :: 'i' :: 's' :: 't' :: tl) ++ ' ' :: '\x7d' :: T))) := by
        rw [sub_append_not_eq fun x hx => isSpace_ne_eq (hws x hx)]
    _ = '=' :: (ws ++ '\x7b' :: ' ' ::
          (('l' :: 'i' :: 's' :: 't' :: tl) ++ ' ' :: '\x7d' :: subUnmarkedList T)) := by
        rw [hstep3]
    _ = ('=' :: ws) ++ '\x7b' :: ' ' ::
          (('l' :: 'i' :: 's' :: 't' :: tl) ++ ' ' :: '\x7d' :: subUnmarkedList T) := rfl

theorem sub_sub_eq (n : Nat) : ∀ s : List Char, s.length ≤ n →
    subUnmarkedList (subUnmarkedList s) = subUnmarkedList s := by
  induction n with
  | zero =>
      intro s hs
      have hnil : s = [] := List.eq_nil_of_length_eq_zero (Nat.le_zero.mp hs)
      subst hnil
      rw [sub_nil, sub_nil]
  | succ n ih =>
      intro s hs
      match s with
      | [] => rw [sub_nil, sub_nil]
      | c :: rest =>
          cases hma : matchAt (c :: rest) with
          | some x =>
              obtain ⟨g1, g2, rem⟩ := x
              have hrem : rem.length ≤ n := by
                have hlt := matchAt_rem_lt hma
                simp only [List.length_cons] at hlt hs
                omega
              rw [sub_cons_match hma, sub_replacement hma (subUnmarkedList rem),
                ih rem hrem]
          | none =>
              have hrest : rest.length ≤ n := by
                simp only [List.length_cons] at hs
                omega
              rw [sub_cons_nomatch hma, sub_cons_nomatch (matchAt_none_sub hma),
                ih rest hrest]

/-- C9: applying the `UnmarkedListWorkaround` pattern set to text it has
already rewritten produces no further change — `apply_to_string` applied
twice equals it applied once, for every input text. -/
theorem apply_to_string_idempotent (s : List Char) :
    apply_to_string (apply_to_string s) = apply_to_string s :=
  sub_sub_eq s.length s le_rfl
